import Mathlib

/-!
Verification of the structural diff engine and renderer of the copilot-cli
repository, together with the terminal-color environment-variable handling
from `internal/pkg/term/color/color.go`.

The diff engine (`diff` package: `From(old).Parse(curr)` followed by
`Tree.Write`) is exercised by the repository's integration test
`Test_Integration_Parse_Write`; its implementation sources are not part of
the provided sources, so the Document Model, Differ and Renderer below are
modelled from the specification (spec.md sections 3, 4.1, 4.1a, 4.2 and
4.3) and validated against the literal expected outputs of the integration
test cases that are part of the sources.
-/

/-! ## Document Model (spec section 3)

Modelled from the spec: a `Node` is exactly one of `Scalar`, `Mapping`
(ordered key/value pairs, keys unique) or `List` (ordered items).
-/

inductive Node where
  | scalar (s : String)
  | mapping (entries : List (String × Node))
  | list (items : List Node)

/-! Modelled from the spec: deep structural equality of document nodes
("matched by equality, not identity", "deep structural equality for nested
values, value equality for scalars"). -/

mutual

def Node.beq : Node → Node → Bool
  | .scalar a, .scalar b => a == b
  | .mapping a, .mapping b => beqEntries a b
  | .list a, .list b => beqItems a b
  | _, _ => false

def beqEntries : List (String × Node) → List (String × Node) → Bool
  | [], [] => true
  | (k1, v1) :: t1, (k2, v2) :: t2 => k1 == k2 && Node.beq v1 v2 && beqEntries t1 t2
  | _, _ => false

def beqItems : List Node → List Node → Bool
  | [], [] => true
  | a :: t1, b :: t2 => Node.beq a b && beqItems t1 t2
  | _, _ => false

end

/-! The keys of a mapping's entry list, in order. -/
def keysOf (es : List (String × Node)) : List String :=
  es.map Prod.fst

/-- Whether a key occurs among the entries. -/
def hasKey (k : String) (es : List (String × Node)) : Bool :=
  es.any (fun kv => kv.1 == k)

/-- Lookup of a key in a mapping's entry list (first occurrence). -/
def lookupNode (k : String) : List (String × Node) → Option Node
  | [] => none
  | (k2, v) :: rest => if k == k2 then some v else lookupNode k rest

/-- No duplicates in a list of keys. -/
def nodupKeysL : List String → Bool
  | [] => true
  | k :: rest => !(rest.any (fun k2 => k2 == k)) && nodupKeysL rest

/-- The spec's Mapping invariant: keys are unique within a mapping. -/
def nodupKeys (es : List (String × Node)) : Bool :=
  nodupKeysL (keysOf es)

/-! Modelled from the spec: well-formedness of a document — every mapping
in the tree satisfies the key-uniqueness invariant of spec section 3. -/

mutual

def Node.wf : Node → Bool
  | .scalar _ => true
  | .mapping es => nodupKeys es && wfEntries es
  | .list xs => wfItems xs

def wfEntries : List (String × Node) → Bool
  | [] => true
  | (_, v) :: rest => Node.wf v && wfEntries rest

def wfItems : List Node → Bool
  | [] => true
  | x :: rest => Node.wf x && wfItems rest

end

/-! ## Diff Tree (spec section 3) -/

/-! Modelled from the spec: the edit operations of a `ListDiff`
(spec sections 3 and 4.2). -/
inductive ListOp where
  | unchangedRun (count : Nat)
  | inserted (node : Node)
  | removed (node : Node)
  | changedItem (oldVal newVal : Node)

/-- Modelled from the spec: the result variant produced by the Differ
(spec section 3); `replaced` is the cross-kind full replacement of spec
section 4.1 rule 4, rendered as `Removed(old)` immediately followed by
`Added(curr)` at the same position. -/
inductive DiffNode where
  | unchanged
  | added (node : Node)
  | removed (node : Node)
  | changed (oldVal newVal : String)
  | replaced (oldNode newNode : Node)
  | mapDiff (entries : List (String × DiffNode))
  | listDiff (ops : List ListOp)

/-! ## Differ — list alignment (spec section 4.2)

Modelled from the spec: an LCS alignment over the two item sequences,
with the leftmost-greedy tie-break of spec section 4.2 (prefer matching
the earliest-occurring equal elements of `old`). The recursion is bounded
by an explicit fuel argument equal to the total remaining length, which is
always sufficient.
-/

/-- Fueled longest-common-subsequence computation. Equal heads are matched
greedily; when neither side is forced, a tie between dropping the head of
`old` and dropping the head of `curr` is resolved in favor of dropping the
head of `curr`, which keeps the earliest elements of `old` available for
matching (the spec's leftmost-greedy tie-break). -/
def lcsFuel : Nat → List Node → List Node → List Node
  | 0, _, _ => []
  | _ + 1, [], _ => []
  | _ + 1, _ :: _, [] => []
  | fuel + 1, x :: xt, y :: yt =>
    if Node.beq x y then
      x :: lcsFuel fuel xt yt
    else
      let dropOld := lcsFuel fuel xt (y :: yt)
      let dropCurr := lcsFuel fuel (x :: xt) yt
      if dropCurr.length < dropOld.length then dropOld else dropCurr

/-- The longest common subsequence of the two item lists. -/
def lcs (old curr : List Node) : List Node :=
  lcsFuel (old.length + curr.length) old curr

/-- A raw edit-script entry: an element kept by the alignment, deleted
from `old`, or inserted from `curr`. -/
inductive RawEdit where
  | keep (node : Node)
  | del (node : Node)
  | ins (node : Node)

/-- Fueled construction of the raw edit script from the two sequences and
their common subsequence: elements of `old` before the next match are
deletions, then elements of `curr` before the next match are insertions,
then the match itself is kept. -/
def alignFuel : Nat → List Node → List Node → List Node → List RawEdit
  | 0, xs, ys, _ => xs.map RawEdit.del ++ ys.map RawEdit.ins
  | fuel + 1, xs, ys, common =>
    match common with
    | [] => xs.map RawEdit.del ++ ys.map RawEdit.ins
    | c :: ct =>
      match xs with
      | [] => ys.map RawEdit.ins
      | x :: xt =>
        if Node.beq x c then
          match ys with
          | [] => (x :: xt).map RawEdit.del
          | y :: yt =>
            if Node.beq y c then RawEdit.keep c :: alignFuel fuel xt yt ct
            else RawEdit.ins y :: alignFuel fuel (x :: xt) yt (c :: ct)
        else RawEdit.del x :: alignFuel fuel xt ys (c :: ct)

/-- The raw edit script aligning `old` with `curr` along their LCS. -/
def editScript (old curr : List Node) : List RawEdit :=
  alignFuel (old.length + curr.length) old curr (lcs old curr)

/-- A segment of the edit script: a maximal run of kept elements, or a
maximal gap of deletions followed by insertions between two matches. -/
inductive Seg where
  | keeps (count : Nat)
  | gap (dels : List Node) (adds : List Node)

/-- Grouping of a raw edit script into maximal segments. -/
def segments : List RawEdit → List Seg
  | [] => []
  | RawEdit.keep _ :: rest =>
    match segments rest with
    | Seg.keeps n :: ss => Seg.keeps (n + 1) :: ss
    | ss => Seg.keeps 1 :: ss
  | RawEdit.del x :: rest =>
    match segments rest with
    | Seg.gap ds adds :: ss => Seg.gap (x :: ds) adds :: ss
    | ss => Seg.gap [x] [] :: ss
  | RawEdit.ins y :: rest =>
    match segments rest with
    | Seg.gap [] adds :: ss => Seg.gap [] (y :: adds) :: ss
    | ss => Seg.gap [] [y] :: ss

/-- Modelled from the spec: the two coalescing rules of spec section 4.2.
A run of kept elements becomes a single `UnchangedRun`; a gap consisting
of exactly one deletion and exactly one insertion becomes a single
`ChangedItem`; all other gaps keep their separate `Removed`/`Inserted`
operations. -/
def Seg.toOps : Seg → List ListOp
  | .keeps n => [ListOp.unchangedRun n]
  | .gap [d] [i] => [ListOp.changedItem d i]
  | .gap ds adds => ds.map ListOp.removed ++ adds.map ListOp.inserted

/-- Post-processing of the raw edit script into `ListDiff` operations. -/
def collapse (script : List RawEdit) : List ListOp :=
  (segments script).flatMap Seg.toOps

/-- The complete `ListDiff` operation list for a pair of item lists. -/
def listOps (old curr : List Node) : List ListOp :=
  collapse (editScript old curr)

/-! ## Differ — top-level dispatch (spec sections 4.1 and 4.1a) -/

/-- Modelled from the spec: the `Added(curr[key])` entries of spec section
4.1a, one for each key present only in `curr`, in `curr` order. -/
def addedEntries (a : List (String × Node)) : List (String × Node) → List (String × DiffNode)
  | [] => []
  | (k, w) :: rest =>
    (if hasKey k a then [] else [(k, DiffNode.added w)]) ++ addedEntries a rest

/-! Modelled from the spec: the Differ of spec sections 4.1 and 4.1a.
`diffOldEntries` produces the entries for the keys of `old` in order
(`Removed` when absent from `curr`, the recursive diff when present in
both, dropped when that diff is `Unchanged`); `diff` dispatches on the
kinds of the two nodes, with cross-kind pairs treated as a full
replacement. -/

mutual

def diff : Node → Node → DiffNode
  | Node.scalar a, Node.scalar b =>
    if a == b then DiffNode.unchanged else DiffNode.changed a b
  | Node.mapping a, Node.mapping b =>
    match diffOldEntries a b ++ addedEntries a b with
    | [] => DiffNode.unchanged
    | es => DiffNode.mapDiff es
  | Node.list a, Node.list b =>
    match listOps a b with
    | [] => DiffNode.unchanged
    | [ListOp.unchangedRun _] => DiffNode.unchanged
    | ops => DiffNode.listDiff ops
  | old, curr => DiffNode.replaced old curr

def diffOldEntries : List (String × Node) → List (String × Node) → List (String × DiffNode)
  | [], _ => []
  | (k, v) :: rest, b =>
    (match lookupNode k b with
     | none => [(k, DiffNode.removed v)]
     | some w =>
       match diff v w with
       | DiffNode.unchanged => []
       | d => [(k, d)]) ++ diffOldEntries rest b

end

/-! ## Renderer (spec section 4.3) -/

/-! A run of space characters. -/
def spaces (n : Nat) : String :=
  String.mk (List.replicate n ' ')

/-- Four spaces of indentation per nesting level. -/
def indent (level : Nat) : String :=
  spaces (4 * level)

/-! Modelled from the spec: the plain structural dump of a document
subtree, as (extra indentation, text) pairs relative to the subtree root.
Mapping entries with scalar values are single lines `key: value`; block
values follow a `key:` line indented four further spaces; list items are
`- item` lines, with the remaining lines of a block item indented two
further spaces past the dash. -/

mutual

def blockLines : Node → List (Nat × String)
  | Node.scalar s => [(0, s)]
  | Node.mapping es => entryDumpLines es
  | Node.list xs => itemDumpLines xs

def entryDumpLines : List (String × Node) → List (Nat × String)
  | [] => []
  | (k, Node.scalar s) :: rest => (0, k ++ ": " ++ s) :: entryDumpLines rest
  | (k, v) :: rest =>
    (0, k ++ ":") :: ((blockLines v).map (fun p => (p.1 + 4, p.2)) ++ entryDumpLines rest)

def itemDumpLines : List Node → List (Nat × String)
  | [] => []
  | Node.scalar s :: rest => (0, "- " ++ s) :: itemDumpLines rest
  | v :: rest =>
    (match blockLines v with
     | [] => [(0, "-")]
     | p :: ps => (0, "- " ++ p.2) :: ps.map (fun q => (q.1 + 2, q.2))) ++ itemDumpLines rest

end

/-! Modelled from the spec: the full-subtree rendering of an added or
removed value under a key — the marker is applied to every line of the
subtree's structural dump, not only to its root line (spec section 4.3). -/
def markedKeyLines (level : Nat) (marker : String) (k : String) : Node → List String
  | Node.scalar s => [indent level ++ marker ++ " " ++ k ++ ": " ++ s]
  | v =>
    (indent level ++ marker ++ " " ++ k ++ ":") ::
      (blockLines v).map (fun p => indent level ++ marker ++ spaces (p.1 + 5) ++ p.2)

/-- Modelled from the spec: rendering of an inserted or removed list item,
`<marker> - <node>` for a scalar and the marked structural dump otherwise. -/
def markedItemLines (level : Nat) (marker : String) : Node → List String
  | Node.scalar s => [indent level ++ marker ++ " - " ++ s]
  | v =>
    match blockLines v with
    | [] => [indent level ++ marker ++ " -"]
    | p :: ps =>
      (indent level ++ marker ++ " - " ++ p.2) ::
        ps.map (fun q => indent level ++ marker ++ spaces (q.1 + 3) ++ q.2)

/-- The scalar text of a node, used for the inline rendering of changed
values. -/
def inlineText : Node → String
  | Node.scalar s => s
  | _ => ""

/-- Modelled from the spec: rendering of a single `ListDiff` operation
(spec section 4.3 table): `(n unchanged item)` when n = 1 and
`(n unchanged items)` otherwise, `+ - <node>` for insertions, `- - <node>`
for removals, and `~ - <old> -> <new>` for changed items. -/
def renderOp (level : Nat) : ListOp → List String
  | ListOp.unchangedRun n =>
    [indent level ++ "(" ++ toString n ++ (if n == 1 then " unchanged item)" else " unchanged items)")]
  | ListOp.inserted v => markedItemLines level "+" v
  | ListOp.removed v => markedItemLines level "-" v
  | ListOp.changedItem o n =>
    [indent level ++ "~ - " ++ inlineText o ++ " -> " ++ inlineText n]

/-! Modelled from the spec: rendering of the entries of a `MapDiff`
(spec section 4.3 table). `Unchanged` entries are omitted; added and
removed subtrees are dumped with their marker on every line; changed
scalars are `~ <key>: <old> -> <new>`; nested `MapDiff`/`ListDiff` get a
`~ <key>:` header with their content one level deeper; a cross-kind
replacement is the removed dump immediately followed by the added dump at
the same position. -/

mutual

def renderEntry (level : Nat) (k : String) : DiffNode → List String
  | DiffNode.unchanged => []
  | DiffNode.added v => markedKeyLines level "+" k v
  | DiffNode.removed v => markedKeyLines level "-" k v
  | DiffNode.changed o n => [indent level ++ "~ " ++ k ++ ": " ++ o ++ " -> " ++ n]
  | DiffNode.replaced o n => markedKeyLines level "-" k o ++ markedKeyLines level "+" k n
  | DiffNode.mapDiff es =>
    (indent level ++ "~ " ++ k ++ ":") :: renderEntries (level + 1) es
  | DiffNode.listDiff ops =>
    (indent level ++ "~ " ++ k ++ ":") :: ops.flatMap (renderOp (level + 1))

def renderEntries (level : Nat) : List (String × DiffNode) → List String
  | [] => []
  | (k, d) :: rest => renderEntry level k d ++ renderEntries level rest

end

/-- The lines emitted for a whole diff tree, starting at indentation
level zero. -/
def renderRootLines : DiffNode → List String
  | DiffNode.unchanged => []
  | DiffNode.mapDiff es => renderEntries 0 es
  | DiffNode.listDiff ops => ops.flatMap (renderOp 0)
  | DiffNode.added v => (blockLines v).map (fun p => "+" ++ spaces (p.1 + 1) ++ p.2)
  | DiffNode.removed v => (blockLines v).map (fun p => "-" ++ spaces (p.1 + 1) ++ p.2)
  | DiffNode.changed o n => ["~ " ++ o ++ " -> " ++ n]
  | DiffNode.replaced o n =>
    (blockLines o).map (fun p => "-" ++ spaces (p.1 + 1) ++ p.2) ++
      (blockLines n).map (fun p => "+" ++ spaces (p.1 + 1) ++ p.2)

/-- Each emitted line is written followed by a newline. -/
def joinNL : List String → String
  | [] => ""
  | l :: rest => l ++ "\n" ++ joinNL rest

/-- Modelled from the spec: the Renderer — serialize the diff tree to
text, one line at a time, each followed by a newline; zero lines yield
the empty string (spec section 4.3). -/
def render (d : DiffNode) : String :=
  joinNL (renderRootLines d)

/-! ## Terminal color configuration — `DisableColorBasedOnEnvVar`
(from `internal/pkg/term/color/color.go`) -/

/-- The two global flags written by `DisableColorBasedOnEnvVar`:
`core.DisableColor` from the survey library and `color.NoColor` from the
fatih/color library. -/
structure ColorState where
  coreDisableColor : Bool
  colorNoColor : Bool
deriving DecidableEq

/-- Embedding of `strings.ToLower` as used by `DisableColorBasedOnEnvVar`
(character-wise lowering; the values compared against, `"false"` and
`"true"`, are ASCII). -/
def lowerString (s : String) : String :=
  String.mk (s.data.map Char.toLower)

/-- Embedding of `DisableColorBasedOnEnvVar` from
`internal/pkg/term/color/color.go`: `env` is the result of
`os.LookupEnv("COLOR")` (`none` when the variable is unset). When unset,
`core.DisableColor` is copied from `color.NoColor`; when the lowercased
value is `"false"` both flags are set to `true`; when it is `"true"` both
are set to `false`; otherwise the state is unchanged. -/
def disableColorBasedOnEnvVar (env : Option String) (s : ColorState) : ColorState :=
  match env with
  | none => { s with coreDisableColor := s.colorNoColor }
  | some value =>
    if lowerString value == "false" then
      { coreDisableColor := true, colorNoColor := true }
    else if lowerString value == "true" then
      { coreDisableColor := false, colorNoColor := false }
    else
      s

/-! ## Basic lemmas about structural equality -/

mutual

theorem beq_refl : ∀ n : Node, Node.beq n n = true
  | .scalar a => by simp [Node.beq]
  | .mapping es => by simpa [Node.beq] using beqEntries_refl es
  | .list xs => by simpa [Node.beq] using beqItems_refl xs

theorem beqEntries_refl : ∀ es, beqEntries es es = true
  | [] => by simp [beqEntries]
  | (k, v) :: t => by
    simp [beqEntries]
    exact ⟨beq_refl v, beqEntries_refl t⟩

theorem beqItems_refl : ∀ xs, beqItems xs xs = true
  | [] => by simp [beqItems]
  | x :: t => by
    simp [beqItems]
    exact ⟨beq_refl x, beqItems_refl t⟩

end

/-! ## Fuel lemmas for the LCS and alignment computations -/

theorem lcsFuel_self : ∀ (fuel : Nat) (xs : List Node), xs.length ≤ fuel →
    lcsFuel fuel xs xs = xs
  | 0, [], _ => rfl
  | _ + 1, [], _ => rfl
  | 0, _ :: _, h => by simp at h
  | fuel + 1, x :: xt, h => by
    have hx : xt.length ≤ fuel := by simpa using h
    simp [lcsFuel, beq_refl x, lcsFuel_self fuel xt hx]

theorem lcs_self (xs : List Node) : lcs xs xs = xs :=
  lcsFuel_self _ xs (by omega)

theorem lcsFuel_congr : ∀ (f g : Nat) (xs ys : List Node),
    xs.length + ys.length ≤ f → xs.length + ys.length ≤ g →
    lcsFuel f xs ys = lcsFuel g xs ys
  | f, g, [], ys, _, _ => by cases f <;> cases g <;> simp [lcsFuel]
  | f, g, _ :: _, [], _, _ => by cases f <;> cases g <;> simp [lcsFuel]
  | 0, _, x :: xt, y :: yt, hf, _ => by simp at hf
  | _ + 1, 0, x :: xt, y :: yt, _, hg => by simp at hg
  | f + 1, g + 1, x :: xt, y :: yt, hf, hg => by
    have h1 : xt.length + yt.length ≤ f := by simp at hf; omega
    have h1g : xt.length + yt.length ≤ g := by simp at hg; omega
    have h2 : xt.length + (y :: yt).length ≤ f := by simp at hf ⊢; omega
    have h2g : xt.length + (y :: yt).length ≤ g := by simp at hg ⊢; omega
    have h3 : (x :: xt).length + yt.length ≤ f := by simp at hf ⊢; omega
    have h3g : (x :: xt).length + yt.length ≤ g := by simp at hg ⊢; omega
    simp only [lcsFuel, lcsFuel_congr f g xt yt h1 h1g,
      lcsFuel_congr f g xt (y :: yt) h2 h2g,
      lcsFuel_congr f g (x :: xt) yt h3 h3g]

/-- Greedy head matching: equal heads are matched immediately by the LCS. -/
theorem lcs_cons_of_beq (x y : Node) (xt yt : List Node) (h : Node.beq x y = true) :
    lcs (x :: xt) (y :: yt) = x :: lcs xt yt := by
  simp only [lcs, List.length_cons]
  have : xt.length + 1 + (yt.length + 1) = (xt.length + yt.length + 1) + 1 := by omega
  rw [this]
  simp only [lcsFuel, h, if_true]
  exact congrArg (x :: ·) (lcsFuel_congr _ _ xt yt (by omega) (by omega))

theorem alignFuel_keepAll : ∀ (fuel : Nat) (xs : List Node), xs.length ≤ fuel →
    alignFuel fuel xs xs xs = xs.map RawEdit.keep
  | 0, [], _ => rfl
  | _ + 1, [], _ => rfl
  | 0, _ :: _, h => by simp at h
  | fuel + 1, x :: xt, h => by
    have hx : xt.length ≤ fuel := by simpa using h
    simp [alignFuel, beq_refl x, alignFuel_keepAll fuel xt hx]

theorem editScript_self (xs : List Node) : editScript xs xs = xs.map RawEdit.keep := by
  simp only [editScript, lcs_self]
  exact alignFuel_keepAll _ xs (by omega)

/-! ## Collapsing lemmas -/

theorem segments_keeps : ∀ (x : Node) (xs : List Node),
    segments ((x :: xs).map RawEdit.keep) = [Seg.keeps (xs.length + 1)]
  | _, [] => rfl
  | x, y :: rest => by
    have ih := segments_keeps y rest
    simp only [List.map_cons] at ih ⊢
    show (match segments (RawEdit.keep y :: List.map RawEdit.keep rest) with
      | Seg.keeps n :: ss => Seg.keeps (n + 1) :: ss
      | ss => Seg.keeps 1 :: ss) = _
    rw [ih]
    simp

theorem collapse_keeps (x : Node) (xs : List Node) :
    collapse ((x :: xs).map RawEdit.keep) = [ListOp.unchangedRun (xs.length + 1)] := by
  rw [collapse, segments_keeps x xs]
  simp [Seg.toOps]

theorem listOps_self : ∀ xs : List Node,
    listOps xs xs = if xs.isEmpty then [] else [ListOp.unchangedRun xs.length]
  | [] => rfl
  | x :: xt => by
    rw [listOps, editScript_self, collapse_keeps x xt]
    simp

/-! ## Lookup lemmas -/

theorem hasKey_of_mem {kv : String × Node} {es : List (String × Node)}
    (h : kv ∈ es) : hasKey kv.1 es = true := by
  simp only [hasKey, List.any_eq_true]
  exact ⟨kv, h, by simp⟩

theorem lookup_mem_of_nodup : ∀ {es : List (String × Node)} {kv : String × Node},
    nodupKeys es = true → kv ∈ es → lookupNode kv.1 es = some kv.2 := by
  intro es
  induction es with
  | nil => intro kv _ h; simp at h
  | cons hd rest ih =>
    intro kv hnd hm
    obtain ⟨k, v⟩ := kv
    obtain ⟨k2, v2⟩ := hd
    simp only [nodupKeys, keysOf, List.map_cons, nodupKeysL, Bool.and_eq_true,
      Bool.not_eq_true'] at hnd
    obtain ⟨hnd1, hnd2⟩ := hnd
    rcases List.mem_cons.mp hm with heq | hrest
    · rw [Prod.mk.injEq] at heq
      obtain ⟨h1, h2⟩ := heq
      subst h1; subst h2
      simp [lookupNode]
    · have hkmem : k ∈ List.map Prod.fst rest := List.mem_map.mpr ⟨(k, v), hrest, rfl⟩
      have hk : k ≠ k2 := by
        intro hkk
        have htrue : ((List.map Prod.fst rest).any fun kk => kk == k2) = true :=
          List.any_eq_true.mpr ⟨k, hkmem, by simp [hkk]⟩
        rw [hnd1] at htrue
        exact absurd htrue (by simp)
      have hne : (k == k2) = false := beq_eq_false_iff_ne.mpr hk
      simp only [lookupNode, hne, Bool.false_eq_true, if_false]
      exact ih (by simpa [nodupKeys, keysOf] using hnd2) hrest

theorem lookup_eq_none_of_not_hasKey : ∀ {es : List (String × Node)} {k : String},
    hasKey k es = false → lookupNode k es = none := by
  intro es
  induction es with
  | nil => intro k _; rfl
  | cons hd rest ih =>
    intro k h
    obtain ⟨k2, v2⟩ := hd
    simp only [hasKey, List.any_cons, Bool.or_eq_false_iff] at h
    obtain ⟨h1, h2⟩ := h
    have hk2 : (k2 == k) = false := h1
    have hne : (k == k2) = false := beq_eq_false_iff_ne.mpr (Ne.symm (beq_eq_false_iff_ne.mp hk2))
    simp only [lookupNode, hne, Bool.false_eq_true, if_false]
    exact ih (by simpa [hasKey] using h2)

/-! ## The diff of a well-formed document with itself is `Unchanged` -/

theorem addedEntries_nil : ∀ (a b : List (String × Node)),
    (∀ kv ∈ b, hasKey kv.1 a = true) → addedEntries a b = []
  | _, [], _ => rfl
  | a, (k, w) :: rest, h => by
    have hh : hasKey k a = true := h (k, w) (List.mem_cons_self _ _)
    have ht := addedEntries_nil a rest (fun kv hm => h kv (List.mem_cons_of_mem _ hm))
    simp [addedEntries, hh, ht]

theorem diffOldEntries_append : ∀ (a1 a2 b : List (String × Node)),
    diffOldEntries (a1 ++ a2) b = diffOldEntries a1 b ++ diffOldEntries a2 b
  | [], _, _ => by simp [diffOldEntries]
  | (k, v) :: rest, a2, b => by
    have ih := diffOldEntries_append rest a2 b
    show _ ++ diffOldEntries (rest ++ a2) b = _
    rw [ih, ← List.append_assoc]
    rfl

mutual

theorem diff_self : ∀ n : Node, Node.wf n = true → diff n n = DiffNode.unchanged
  | .scalar a, _ => by simp [diff]
  | .mapping es, h => by
    have hx : nodupKeys es = true ∧ wfEntries es = true := by
      simpa [Node.wf] using h
    have hd : diffOldEntries es es = [] :=
      diffOldEntries_nil es es hx.2 (fun kv hm => lookup_mem_of_nodup hx.1 hm)
    have ha : addedEntries es es = [] :=
      addedEntries_nil es es (fun kv hm => hasKey_of_mem hm)
    simp [diff, hd, ha]
  | .list xs, _ => by
    have hops := listOps_self xs
    cases xs with
    | nil => simp [diff, hops]
    | cons x xt => simp [diff, hops]

theorem diffOldEntries_nil : ∀ (a b : List (String × Node)), wfEntries a = true →
    (∀ kv ∈ a, lookupNode kv.1 b = some kv.2) → diffOldEntries a b = []
  | [], _, _, _ => rfl
  | (k, v) :: rest, b, hw, hm => by
    have hw1 : Node.wf v = true ∧ wfEntries rest = true := by simpa [wfEntries] using hw
    have hlk : lookupNode k b = some v := hm (k, v) (List.mem_cons_self _ _)
    have hdv : diff v v = DiffNode.unchanged := diff_self v hw1.1
    have ht : diffOldEntries rest b = [] :=
      diffOldEntries_nil rest b hw1.2 (fun kv h2 => hm kv (List.mem_cons_of_mem _ h2))
    simp [diffOldEntries, hlk, hdv, ht]

end

/-- C1: for every well-formed document `D` (any nesting of Mapping, List
and Scalar nodes, with the mapping key-uniqueness invariant of spec
section 3), `render (diff D D)` is the empty string. -/
theorem c1_no_diff_renders_empty (D : Node) (h : Node.wf D = true) :
    render (diff D D) = "" := by
  rw [diff_self D h]
  rfl

/-- Witness for C1 at the "no diff" integration-test document. -/
theorem c1_witness :
    Node.wf (Node.mapping [("Mary", Node.mapping
      [("Height", Node.mapping [("cm", Node.scalar "190")]),
       ("CanFight", Node.scalar "yes"),
       ("FavoriteWord", Node.scalar "muscle")])]) = true
    ∧ render (diff
        (Node.mapping [("Mary", Node.mapping
          [("Height", Node.mapping [("cm", Node.scalar "190")]),
           ("CanFight", Node.scalar "yes"),
           ("FavoriteWord", Node.scalar "muscle")])])
        (Node.mapping [("Mary", Node.mapping
          [("Height", Node.mapping [("cm", Node.scalar "190")]),
           ("CanFight", Node.scalar "yes"),
           ("FavoriteWord", Node.scalar "muscle")])])) = "" :=
  ⟨by decide, c1_no_diff_renders_empty _ (by decide)⟩

/-- C4: the "list with insertion" integration test — old
`[dog,bear,cat]`, curr `[dog,bear,mouse,cat]` — renders exactly to
`(2 unchanged items)`, `+ - mouse`, `(1 unchanged item)` under the
`~ DanceCompetition:` header, and in general an `UnchangedRun` of count
`n` renders as `(n unchanged item)` when `n = 1` and
`(n unchanged items)` otherwise. -/
theorem c4_list_insertion_run_collapsing :
    render (diff
      (Node.mapping [("DanceCompetition", Node.list
        [Node.scalar "dog", Node.scalar "bear", Node.scalar "cat"])])
      (Node.mapping [("DanceCompetition", Node.list
        [Node.scalar "dog", Node.scalar "bear", Node.scalar "mouse", Node.scalar "cat"])]))
      = "~ DanceCompetition:\n    (2 unchanged items)\n    + - mouse\n    (1 unchanged item)\n"
    ∧ ∀ (level n : Nat), renderOp level (ListOp.unchangedRun n) =
        [indent level ++ "(" ++ toString n ++
          (if n = 1 then " unchanged item)" else " unchanged items)")] := by
  refine ⟨rfl, fun level n => ?_⟩
  by_cases h : n = 1 <;> simp [renderOp, h]

/-- C8: the rendered output of any diff tree is either the empty string
(zero emitted lines) or the emitted lines joined by newlines with exactly
one trailing newline after the last line. -/
theorem c8_trailing_newline (d : DiffNode) :
    (renderRootLines d = [] ∧ render d = "") ∨
    (renderRootLines d ≠ [] ∧
      render d = String.intercalate "\n" (renderRootLines d) ++ "\n") := by
  have go_key : ∀ (ls : List String) (acc : String),
      String.intercalate.go acc "\n" ls ++ "\n" = acc ++ "\n" ++ joinNL ls := by
    intro ls
    induction ls with
    | nil => intro acc; simp [String.intercalate.go, joinNL, String.append_empty]
    | cons a as ih =>
      intro acc
      show String.intercalate.go (acc ++ "\n" ++ a) "\n" as ++ "\n" = _
      rw [ih (acc ++ "\n" ++ a)]
      simp [joinNL, String.append_assoc]
  cases hls : renderRootLines d with
  | nil =>
    left
    refine ⟨rfl, ?_⟩
    rw [render, hls]
    rfl
  | cons l ls =>
    right
    refine ⟨by simp, ?_⟩
    rw [render, hls]
    show _ = String.intercalate.go l "\n" ls ++ "\n"
    rw [go_key ls l]
    rfl

/-- The structural kind of a node (Scalar, Mapping or List). -/
inductive Kind where
  | scalarKind
  | mappingKind
  | listKind
deriving DecidableEq

/-- The kind of a document node. -/
def Node.kind : Node → Kind
  | .scalar _ => Kind.scalarKind
  | .mapping _ => Kind.mappingKind
  | .list _ => Kind.listKind

/-- C9: the Differ is total — every kind-pair combination produces a
defined DiffNode: equal-kind scalar pairs give `Unchanged` or `Changed`,
equal-kind mapping pairs give `Unchanged` or a `MapDiff`, equal-kind list
pairs give `Unchanged` or a `ListDiff`, and every cross-kind pair gives
the full replacement. -/
theorem c9_diff_total (old curr : Node) :
    (∀ a b, old = Node.scalar a → curr = Node.scalar b →
      diff old curr = DiffNode.unchanged ∨ diff old curr = DiffNode.changed a b)
    ∧ (∀ ea eb, old = Node.mapping ea → curr = Node.mapping eb →
      diff old curr = DiffNode.unchanged ∨ ∃ es, diff old curr = DiffNode.mapDiff es)
    ∧ (∀ xa xb, old = Node.list xa → curr = Node.list xb →
      diff old curr = DiffNode.unchanged ∨ ∃ ops, diff old curr = DiffNode.listDiff ops)
    ∧ (Node.kind old ≠ Node.kind curr → diff old curr = DiffNode.replaced old curr) := by
  refine ⟨?_, ?_, ?_, ?_⟩
  · rintro a b rfl rfl
    by_cases h : a = b
    · left; simp [diff, h]
    · right; simp [diff, beq_eq_false_iff_ne.mpr h]
  · rintro ea eb rfl rfl
    have h : diff (Node.mapping ea) (Node.mapping eb) =
        (match diffOldEntries ea eb ++ addedEntries ea eb with
          | [] => DiffNode.unchanged
          | es => DiffNode.mapDiff es) := rfl
    rcases hes : diffOldEntries ea eb ++ addedEntries ea eb with _ | ⟨e, tail⟩
    · left; rw [h, hes]
    · right; exact ⟨e :: tail, by rw [h, hes]⟩
  · rintro xa xb rfl rfl
    have h : diff (Node.list xa) (Node.list xb) =
        (match listOps xa xb with
          | [] => DiffNode.unchanged
          | [ListOp.unchangedRun _] => DiffNode.unchanged
          | ops => DiffNode.listDiff ops) := rfl
    rcases hops : listOps xa xb with _ | ⟨op, rest⟩
    · left; rw [h, hops]
    · cases op with
      | unchangedRun n =>
        cases rest with
        | nil => left; rw [h, hops]
        | cons r rest2 => right; exact ⟨_, by rw [h, hops]⟩
      | inserted v => right; exact ⟨_, by rw [h, hops]⟩
      | removed v => right; exact ⟨_, by rw [h, hops]⟩
      | changedItem o c => right; exact ⟨_, by rw [h, hops]⟩
  · intro h
    cases old <;> cases curr <;> first
      | (exact absurd rfl h)
      | rfl

/-- Witness for C9 at a concrete cross-kind pair (mapping vs scalar). -/
theorem c9_witness :
    diff (Node.mapping [("a", Node.scalar "1")]) (Node.scalar "x")
      = DiffNode.replaced (Node.mapping [("a", Node.scalar "1")]) (Node.scalar "x") :=
  (c9_diff_total (Node.mapping [("a", Node.scalar "1")]) (Node.scalar "x")).2.2.2 (by decide)

/-- C10: `DisableColorBasedOnEnvVar` touches only `core.DisableColor` and
`color.NoColor`, and exactly as follows: with `COLOR` unset it copies
`color.NoColor` into `core.DisableColor` and leaves `color.NoColor`
unchanged; with a value lowercasing to `"false"` it sets both flags to
true; with a value lowercasing to `"true"` it sets both to false; with
any other value it leaves both unchanged. -/
theorem c10_disable_color_env_cases (s : ColorState) (v : String) :
    (disableColorBasedOnEnvVar none s =
      { coreDisableColor := s.colorNoColor, colorNoColor := s.colorNoColor })
    ∧ (lowerString v = "false" → disableColorBasedOnEnvVar (some v) s =
      { coreDisableColor := true, colorNoColor := true })
    ∧ (lowerString v = "true" → disableColorBasedOnEnvVar (some v) s =
      { coreDisableColor := false, colorNoColor := false })
    ∧ (lowerString v ≠ "false" → lowerString v ≠ "true" →
      disableColorBasedOnEnvVar (some v) s = s) := by
  refine ⟨rfl, ?_, ?_, ?_⟩
  · intro h
    simp [disableColorBasedOnEnvVar, h]
  · intro h
    simp [disableColorBasedOnEnvVar, h]
  · intro h1 h2
    simp [disableColorBasedOnEnvVar, beq_eq_false_iff_ne.mpr h1, beq_eq_false_iff_ne.mpr h2]

/-- Witness for C10: `COLOR=FaLsE` disables color output. -/
theorem c10_witness :
    lowerString "FaLsE" = "false"
    ∧ disableColorBasedOnEnvVar (some "FaLsE") { coreDisableColor := false, colorNoColor := false }
      = { coreDisableColor := true, colorNoColor := true } :=
  ⟨by decide, (c10_disable_color_env_cases
    { coreDisableColor := false, colorNoColor := false } "FaLsE").2.1 (by decide)⟩

/-! ## C5 — adjacent replace collapsing -/

/-- A raw edit-script tail is a gap boundary when it is exhausted or its
next entry is a kept element (no intervening match inside a gap). -/
def boundary : List RawEdit → Bool
  | [] => true
  | RawEdit.keep _ :: _ => true
  | _ => false

theorem segments_ins_eq (y : Node) (r : List RawEdit) :
    segments (RawEdit.ins y :: r) =
      (match segments r with
        | Seg.gap [] adds :: ss => Seg.gap [] (y :: adds) :: ss
        | ss => Seg.gap [] [y] :: ss) := rfl

theorem segments_del_eq (x : Node) (r : List RawEdit) :
    segments (RawEdit.del x :: r) =
      (match segments r with
        | Seg.gap ds adds :: ss => Seg.gap (x :: ds) adds :: ss
        | ss => Seg.gap [x] [] :: ss) := rfl

theorem segments_keep_head (x : Node) (r : List RawEdit) :
    ∃ n ss, segments (RawEdit.keep x :: r) = Seg.keeps n :: ss := by
  show ∃ n ss, (match segments r with
    | Seg.keeps n :: ss => Seg.keeps (n + 1) :: ss
    | ss => Seg.keeps 1 :: ss) = Seg.keeps n :: ss
  rcases hs : segments r with _ | ⟨s0, ss⟩
  · exact ⟨1, [], rfl⟩
  · cases s0 with
    | keeps n => exact ⟨n + 1, ss, rfl⟩
    | gap ds adds => exact ⟨1, Seg.gap ds adds :: ss, rfl⟩

/-- C5: in every list diff's edit script, a `Removed` element immediately
followed — with no intervening match — by exactly one `Inserted` element
collapses to a single `ChangedItem(oldValue, newValue)` operation, while a
run of two removals before the insertion, or of two insertions after the
removal, keeps all of its separate `Removed`/`Inserted` operations. -/
theorem c5_adjacent_replace_collapsing (d i x : Node) (rest : List RawEdit)
    (h : boundary rest = true) :
    collapse (RawEdit.del d :: RawEdit.ins i :: rest)
        = ListOp.changedItem d i :: collapse rest
    ∧ collapse (RawEdit.del d :: RawEdit.del x :: RawEdit.ins i :: rest)
        = ListOp.removed d :: ListOp.removed x :: ListOp.inserted i :: collapse rest
    ∧ collapse (RawEdit.del d :: RawEdit.ins i :: RawEdit.ins x :: rest)
        = ListOp.removed d :: ListOp.inserted i :: ListOp.inserted x :: collapse rest := by
  have hrest : segments rest = [] ∨ ∃ n ss, segments rest = Seg.keeps n :: ss := by
    cases rest with
    | nil => left; rfl
    | cons e r2 =>
      cases e with
      | keep x2 => right; exact segments_keep_head x2 r2
      | del _ => simp [boundary] at h
      | ins _ => simp [boundary] at h
  refine ⟨?_, ?_, ?_⟩ <;>
    rcases hrest with h0 | ⟨n, ss, h0⟩ <;>
      simp [collapse, segments_del_eq, segments_ins_eq, h0, Seg.toOps]

/-- Witness for C5 at a concrete script: deleting `circle` and inserting
`ellipse` at the end of the script collapses to a changed item. -/
theorem c5_witness :
    collapse [RawEdit.del (Node.scalar "circle"), RawEdit.ins (Node.scalar "ellipse")]
      = [ListOp.changedItem (Node.scalar "circle") (Node.scalar "ellipse")] :=
  (c5_adjacent_replace_collapsing (Node.scalar "circle") (Node.scalar "ellipse")
    (Node.scalar "x") [] rfl).1

/-! ## C6 — cross-kind full replacement -/

theorem diff_replaced_of_kind_ne (old curr : Node)
    (h : Node.kind old ≠ Node.kind curr) :
    diff old curr = DiffNode.replaced old curr := by
  cases old <;> cases curr <;> first
    | exact absurd rfl h
    | rfl

theorem markedKeyLines_marked (level : Nat) (m k : String) (v : Node) :
    ∀ line ∈ markedKeyLines level m k v, ∃ t, line = (indent level ++ m) ++ t := by
  intro line hl
  cases v with
  | scalar s =>
    simp only [markedKeyLines, List.mem_singleton] at hl
    exact ⟨" " ++ k ++ ": " ++ s, by rw [hl]; simp [String.append_assoc]⟩
  | mapping es =>
    simp only [markedKeyLines, List.mem_cons, List.mem_map] at hl
    rcases hl with hl | ⟨p, _, hl⟩
    · exact ⟨" " ++ k ++ ":", by rw [hl]; simp [String.append_assoc]⟩
    · exact ⟨spaces (p.1 + 5) ++ p.2, by rw [← hl]; simp [String.append_assoc]⟩
  | list xs =>
    simp only [markedKeyLines, List.mem_cons, List.mem_map] at hl
    rcases hl with hl | ⟨p, _, hl⟩
    · exact ⟨" " ++ k ++ ":", by rw [hl]; simp [String.append_assoc]⟩
    · exact ⟨spaces (p.1 + 5) ++ p.2, by rw [← hl]; simp [String.append_assoc]⟩

/-- C6: every cross-kind pair diffs to the full replacement, which renders
under a key as the removed subtree immediately followed by the added
subtree, with the `-` marker at the head of every line of the old
subtree's dump and the `+` marker at the head of every line of the new
subtree's dump. -/
theorem c6_cross_kind_replacement (old curr : Node) (k : String) (level : Nat)
    (h : Node.kind old ≠ Node.kind curr) :
    diff old curr = DiffNode.replaced old curr
    ∧ renderEntry level k (DiffNode.replaced old curr)
        = markedKeyLines level "-" k old ++ markedKeyLines level "+" k curr
    ∧ (∀ line ∈ markedKeyLines level "-" k old, ∃ t, line = (indent level ++ "-") ++ t)
    ∧ (∀ line ∈ markedKeyLines level "+" k curr, ∃ t, line = (indent level ++ "+") ++ t) :=
  ⟨diff_replaced_of_kind_ne old curr h, rfl,
    markedKeyLines_marked level "-" k old, markedKeyLines_marked level "+" k curr⟩

/-- Witness for C6 at the "change a map to scalar" integration test: the
`Dialogue` key whose value turns from a mapping into a scalar renders as
the dumped old mapping under `-` followed by the scalar line under `+`. -/
theorem c6_witness :
    renderEntry 1 "Dialogue" (diff
      (Node.mapping [("Bear", Node.scalar "\"I know I'm supposed to keep an eye on you\"")])
      (Node.scalar "\"Said bear: 'I know I'm supposed to keep an eye on you\""))
      = ["    - Dialogue:",
         "    -     Bear: \"I know I'm supposed to keep an eye on you\"",
         "    + Dialogue: \"Said bear: 'I know I'm supposed to keep an eye on you\""] := by
  rw [(c6_cross_kind_replacement
    (Node.mapping [("Bear", Node.scalar "\"I know I'm supposed to keep an eye on you\"")])
    (Node.scalar "\"Said bear: 'I know I'm supposed to keep an eye on you\"")
    "Dialogue" 1 (by decide)).1]
  rfl

/-! ## C7 — leftmost-greedy LCS tie-break -/

/-- C7: the list alignment is a deterministic function whose tie-break
matches the earliest-occurring equal elements of `old`: equal heads are
always matched immediately; on the ambiguous pair `[a,b]` vs `[b,a]`
(both `[a]` and `[b]` are maximal common subsequences) the alignment
matches `a`, the earliest element of `old`; and on the repository's mixed
insertion/deletion/change test the resulting edit script renders to
exactly the expected output. -/
theorem c7_lcs_tie_break :
    (∀ (x y : Node) (xt yt : List Node), Node.beq x y = true →
      lcs (x :: xt) (y :: yt) = x :: lcs xt yt)
    ∧ lcs [Node.scalar "a", Node.scalar "b"] [Node.scalar "b", Node.scalar "a"]
        = [Node.scalar "a"]
    ∧ render (diff
        (Node.mapping [("DogsFavoriteShape", Node.list
          [Node.scalar "irregular", Node.scalar "triangle",
           Node.scalar "circle", Node.scalar "rectangle"])])
        (Node.mapping [("DogsFavoriteShape", Node.list
          [Node.scalar "triangle", Node.scalar "ellipse",
           Node.scalar "rectangle", Node.scalar "food-shape"])]))
        = "~ DogsFavoriteShape:\n    - - irregular\n    (1 unchanged item)\n    ~ - circle -> ellipse\n    (1 unchanged item)\n    + - food-shape\n" :=
  ⟨lcs_cons_of_beq, rfl, rfl⟩

/-- Witness for C7: greedy head matching applied at a concrete pair. -/
theorem c7_witness :
    lcs [Node.scalar "q", Node.scalar "r"] [Node.scalar "q"]
      = Node.scalar "q" :: lcs [Node.scalar "r"] [] :=
  c7_lcs_tie_break.1 (Node.scalar "q") (Node.scalar "q") [Node.scalar "r"] [] rfl

/-! ## C3 — scalar change propagation -/

/-- A mapping frame around a distinguished entry: the sibling entries
before the key, the key itself, and the sibling entries after it. -/
abbrev Frame := List (String × Node) × String × List (String × Node)

/-- Wrap a leaf node in a chain of mapping frames. -/
def plug : List Frame → Node → Node
  | [], leaf => leaf
  | (pre, k, post) :: fs, leaf => Node.mapping (pre ++ (k, plug fs leaf) :: post)

/-- The diff tree produced by a single changed leaf scalar under a chain
of mapping keys: a nested single-entry `MapDiff` chain ending in
`Changed`. -/
def chainDiff : List Frame → String → String → DiffNode
  | [], o, c => DiffNode.changed o c
  | (_, k, _) :: fs, o, c => DiffNode.mapDiff [(k, chainDiff fs o c)]

/-- The lines rendered for a single changed leaf scalar: one `~ <key>:`
header per ancestor mapping key and exactly one
`~ <key>: <old> -> <new>` line at the leaf. -/
def chainLinesK (level : Nat) (k : String) : List Frame → String → String → List String
  | [], o, c => [indent level ++ "~ " ++ k ++ ": " ++ o ++ " -> " ++ c]
  | (_, k2, _) :: fs, o, c =>
    (indent level ++ "~ " ++ k ++ ":") :: chainLinesK (level + 1) k2 fs o c

theorem wfEntries_append : ∀ (a b : List (String × Node)),
    wfEntries (a ++ b) = (wfEntries a && wfEntries b)
  | [], b => by simp [wfEntries]
  | (k, v) :: rest, b => by
    simp [wfEntries, wfEntries_append rest b, Bool.and_assoc]

theorem diff_plug : ∀ (fs : List Frame) (o c : String),
    Node.wf (plug fs (Node.scalar o)) = true → (o == c) = false →
    diff (plug fs (Node.scalar o)) (plug fs (Node.scalar c)) = chainDiff fs o c
  | [], o, c, _, hne => by simp [plug, diff, chainDiff, hne]
  | (pre, k, post) :: fs, o, c, hwf, hne => by
    obtain ⟨hnd, hwe⟩ : nodupKeys (pre ++ (k, plug fs (Node.scalar o)) :: post) = true ∧
        wfEntries (pre ++ (k, plug fs (Node.scalar o)) :: post) = true := by
      simpa [plug, Node.wf] using hwf
    rw [wfEntries_append] at hwe
    simp only [Bool.and_eq_true, wfEntries] at hwe
    obtain ⟨hwPre, hwX, hwPost⟩ : wfEntries pre = true ∧
        Node.wf (plug fs (Node.scalar o)) = true ∧ wfEntries post = true :=
      ⟨hwe.1, hwe.2.1, hwe.2.2⟩
    have hndB : nodupKeys (pre ++ (k, plug fs (Node.scalar c)) :: post) = true := by
      have heq : nodupKeys (pre ++ (k, plug fs (Node.scalar c)) :: post)
          = nodupKeys (pre ++ (k, plug fs (Node.scalar o)) :: post) := by
        simp [nodupKeys, keysOf]
      rw [heq]; exact hnd
    have h1 : diffOldEntries pre (pre ++ (k, plug fs (Node.scalar c)) :: post) = [] :=
      diffOldEntries_nil pre _ hwPre
        (fun kv hm => lookup_mem_of_nodup hndB (List.mem_append_left _ hm))
    have hlk : lookupNode k (pre ++ (k, plug fs (Node.scalar c)) :: post)
        = some (plug fs (Node.scalar c)) :=
      lookup_mem_of_nodup hndB (List.mem_append_right _ (List.mem_cons_self _ _))
    have hdiff : diff (plug fs (Node.scalar o)) (plug fs (Node.scalar c)) = chainDiff fs o c :=
      diff_plug fs o c hwX hne
    have hpost : diffOldEntries post (pre ++ (k, plug fs (Node.scalar c)) :: post) = [] :=
      diffOldEntries_nil post _ hwPost
        (fun kv hm => lookup_mem_of_nodup hndB
          (List.mem_append_right _ (List.mem_cons_of_mem _ hm)))
    have h2 : diffOldEntries ((k, plug fs (Node.scalar o)) :: post)
        (pre ++ (k, plug fs (Node.scalar c)) :: post) = [(k, chainDiff fs o c)] := by
      show (match lookupNode k (pre ++ (k, plug fs (Node.scalar c)) :: post) with
        | none => [(k, DiffNode.removed (plug fs (Node.scalar o)))]
        | some w =>
          match diff (plug fs (Node.scalar o)) w with
          | DiffNode.unchanged => []
          | d => [(k, d)]) ++
          diffOldEntries post (pre ++ (k, plug fs (Node.scalar c)) :: post) = _
      rw [hlk]
      show (match diff (plug fs (Node.scalar o)) (plug fs (Node.scalar c)) with
        | DiffNode.unchanged => []
        | d => [(k, d)]) ++
          diffOldEntries post (pre ++ (k, plug fs (Node.scalar c)) :: post) = _
      rw [hdiff, hpost]
      cases fs with
      | nil => rfl
      | cons f fs2 => rfl
    have hdo : diffOldEntries (pre ++ (k, plug fs (Node.scalar o)) :: post)
        (pre ++ (k, plug fs (Node.scalar c)) :: post) = [(k, chainDiff fs o c)] := by
      rw [diffOldEntries_append, h1, h2]
      rfl
    have hae : addedEntries (pre ++ (k, plug fs (Node.scalar o)) :: post)
        (pre ++ (k, plug fs (Node.scalar c)) :: post) = [] := by
      apply addedEntries_nil
      intro kv hm
      rcases List.mem_append.mp hm with hmp | hmk
      · exact hasKey_of_mem (List.mem_append_left _ hmp)
      · rcases List.mem_cons.mp hmk with heq | hmpost
        · have : hasKey k (pre ++ (k, plug fs (Node.scalar o)) :: post) = true :=
            hasKey_of_mem (List.mem_append_right _ (List.mem_cons_self _ _))
          rw [heq]
          exact this
        · exact hasKey_of_mem (List.mem_append_right _ (List.mem_cons_of_mem _ hmpost))
    show (match diffOldEntries (pre ++ (k, plug fs (Node.scalar o)) :: post)
        (pre ++ (k, plug fs (Node.scalar c)) :: post) ++
        addedEntries (pre ++ (k, plug fs (Node.scalar o)) :: post)
        (pre ++ (k, plug fs (Node.scalar c)) :: post) with
      | [] => DiffNode.unchanged
      | es => DiffNode.mapDiff es) = chainDiff ((pre, k, post) :: fs) o c
    rw [hdo, hae]
    rfl

theorem renderEntry_chainK : ∀ (fs : List Frame) (level : Nat) (k o c : String),
    renderEntry level k (chainDiff fs o c) = chainLinesK level k fs o c
  | [], _, _, _, _ => rfl
  | (p2, k2, s2) :: fs, level, k, o, c => by
    show (indent level ++ "~ " ++ k ++ ":") ::
      (renderEntry (level + 1) k2 (chainDiff fs o c) ++ renderEntries (level + 1) []) = _
    rw [show renderEntries (level + 1) ([] : List (String × DiffNode)) = [] from rfl,
      List.append_nil, renderEntry_chainK fs (level + 1) k2 o c]
    rfl

/-- C3: when two documents differ only in the value of one leaf scalar
nested inside mappings, the rendered output is exactly one `~ <key>:`
header line per ancestor mapping key on the path — never a `+` or `-`
marker — followed by exactly one `~ <key>: <old> -> <new>` line at the
leaf. -/
theorem c3_scalar_change_propagation (pre : List (String × Node)) (k : String)
    (post : List (String × Node)) (fs : List Frame) (o c : String)
    (hwf : Node.wf (plug ((pre, k, post) :: fs) (Node.scalar o)) = true)
    (hne : (o == c) = false) :
    render (diff (plug ((pre, k, post) :: fs) (Node.scalar o))
        (plug ((pre, k, post) :: fs) (Node.scalar c)))
      = joinNL (chainLinesK 0 k fs o c) := by
  rw [render, diff_plug ((pre, k, post) :: fs) o c hwf hne]
  show joinNL (renderEntry 0 k (chainDiff fs o c) ++ renderEntries 0 []) = _
  rw [show renderEntries 0 ([] : List (String × DiffNode)) = [] from rfl,
    List.append_nil, renderEntry_chainK fs 0 k o c]

/-- Witness for C3 at the "change keyed values" integration test. -/
theorem c3_witness :
    render (diff
      (plug [([], "Mary", []), ([], "Height", []), ([], "cm", [])] (Node.scalar "190"))
      (plug [([], "Mary", []), ([], "Height", []), ([], "cm", [])] (Node.scalar "168")))
      = "~ Mary:\n    ~ Height:\n        ~ cm: 190 -> 168\n" := by
  rw [c3_scalar_change_propagation [] "Mary" [] [([], "Height", []), ([], "cm", [])]
    "190" "168" (by decide) (by decide)]
  rfl

/-! ## C2 — the MapDiff entry characterization of spec section 4.1a -/

/-- First-appearance deduplication of a key list: keys already seen are
not repeated. -/
def dedupFirst : List String → List String → List String
  | _, [] => []
  | seen, k :: rest =>
    if seen.any (fun k2 => k2 == k) then dedupFirst seen rest
    else k :: dedupFirst (k :: seen) rest

/-- Modelled from the spec (section 4.1a): the keys of `old` unioned with
the keys of `curr`, ordered by first appearance scanning `old` then
`curr`. -/
def specKeys (a b : List (String × Node)) : List String :=
  dedupFirst [] (keysOf a ++ keysOf b)

/-- Modelled from the spec (section 4.1a): the classification of one key
of the union — `Removed` when present only in `old`, `Added` when present
only in `curr`, the recursive diff when present in both, dropped when
that diff is `Unchanged`. -/
def specEntryFor (a b : List (String × Node)) (k : String) : Option (String × DiffNode) :=
  match lookupNode k a, lookupNode k b with
  | some v, some w =>
    match diff v w with
    | DiffNode.unchanged => none
    | d => some (k, d)
  | some v, none => some (k, DiffNode.removed v)
  | none, some w => some (k, DiffNode.added w)
  | none, none => none

/-- Modelled from the spec (section 4.1a): the ordered, filtered entry
list of the mapping diff. -/
def specMapEntries (a b : List (String × Node)) : List (String × DiffNode) :=
  (specKeys a b).filterMap (specEntryFor a b)

theorem hasKey_eq_any_keys : ∀ (k : String) (a : List (String × Node)),
    hasKey k a = (keysOf a).any (fun k2 => k2 == k)
  | _, [] => rfl
  | k, (k2, v2) :: rest => by
    show ((k2 == k) || rest.any (fun kv => kv.1 == k))
      = ((k2 == k) || (keysOf rest).any (fun kk => kk == k))
    rw [show (rest.any fun kv => kv.1 == k) = hasKey k rest from rfl,
      hasKey_eq_any_keys k rest]

theorem dedupFirst_congr : ∀ (xs s1 s2 : List String),
    (∀ k ∈ xs, s1.any (fun k2 => k2 == k) = s2.any (fun k2 => k2 == k)) →
    dedupFirst s1 xs = dedupFirst s2 xs
  | [], _, _, _ => rfl
  | k :: rest, s1, s2, h => by
    have hk := h k (List.mem_cons_self _ _)
    rw [dedupFirst, dedupFirst, hk]
    cases h2 : s2.any (fun k2 => k2 == k) with
    | true =>
      simp only [if_true]
      exact dedupFirst_congr rest s1 s2 (fun k2 hm => h k2 (List.mem_cons_of_mem _ hm))
    | false =>
      simp only [Bool.false_eq_true, if_false]
      rw [dedupFirst_congr rest (k :: s1) (k :: s2)
        (fun k2 hm => by simp [List.any_cons, h k2 (List.mem_cons_of_mem _ hm)])]

theorem dedupFirst_nodup : ∀ (kb seen : List String), nodupKeysL kb = true →
    dedupFirst seen kb = kb.filter (fun k => !(seen.any (fun k2 => k2 == k)))
  | [], _, _ => rfl
  | k :: rest, seen, h => by
    obtain ⟨h1, h2⟩ : (rest.any (fun k2 => k2 == k)) = false ∧ nodupKeysL rest = true := by
      simpa [nodupKeysL] using h
    rw [dedupFirst, List.filter_cons]
    cases hs : seen.any (fun k2 => k2 == k) with
    | true =>
      simp only [if_true, Bool.not_true, Bool.false_eq_true, if_false]
      exact dedupFirst_nodup rest seen h2
    | false =>
      simp only [Bool.false_eq_true, if_false, Bool.not_false, if_true]
      have hcong : dedupFirst (k :: seen) rest = dedupFirst seen rest := by
        apply dedupFirst_congr
        intro k2 hm
        have hne : (k2 == k) = false := by
          cases hkk : (k2 == k) with
          | true =>
            have : rest.any (fun k3 => k3 == k) = true :=
              List.any_eq_true.mpr ⟨k2, hm, hkk⟩
            rw [h1] at this
            exact absurd this (by simp)
          | false => rfl
          
        have : (k == k2) = false :=
          beq_eq_false_iff_ne.mpr (Ne.symm (beq_eq_false_iff_ne.mp hne))
        simp [List.any_cons, this]
      rw [hcong, dedupFirst_nodup rest seen h2]

theorem dedupFirst_split : ∀ (ka kb seen : List String), nodupKeysL ka = true →
    (∀ k ∈ ka, seen.any (fun k2 => k2 == k) = false) → nodupKeysL kb = true →
    dedupFirst seen (ka ++ kb) =
      ka ++ kb.filter (fun k =>
        !(seen.any (fun k2 => k2 == k)) && !(ka.any (fun k2 => k2 == k)))
  | [], kb, seen, _, _, hkb => by
    rw [List.nil_append, dedupFirst_nodup kb seen hkb, List.nil_append]
    apply List.filter_congr
    intro k _
    simp
  | k :: ka2, kb, seen, hka, hseen, hkb => by
    obtain ⟨h1, h2⟩ : (ka2.any (fun k2 => k2 == k)) = false ∧ nodupKeysL ka2 = true := by
      simpa [nodupKeysL] using hka
    have hs : seen.any (fun k2 => k2 == k) = false := hseen k (List.mem_cons_self _ _)
    rw [List.cons_append, dedupFirst, hs]
    simp only [Bool.false_eq_true, if_false]
    have hrec := dedupFirst_split ka2 kb (k :: seen) h2
      (fun k2 hm => by
        have hinka : (k == k2) = false := by
          have hne : (k2 == k) = false := by
            cases hkk : (k2 == k) with
            | true =>
              have : ka2.any (fun k3 => k3 == k) = true :=
                List.any_eq_true.mpr ⟨k2, hm, hkk⟩
              rw [h1] at this
              exact absurd this (by simp)
            | false => rfl
          exact beq_eq_false_iff_ne.mpr (Ne.symm (beq_eq_false_iff_ne.mp hne))
        simp [List.any_cons, hinka, hseen k2 (List.mem_cons_of_mem _ hm)])
      hkb
    rw [hrec, List.cons_append]
    congr 1
    congr 1
    apply List.filter_congr
    intro k2 _
    cases hx : (k == k2) <;>
      cases hy : seen.any (fun k3 => k3 == k2) <;>
        cases hz : ka2.any (fun k3 => k3 == k2) <;>
          simp [List.any_cons, hx, hy, hz]

theorem filterMap_keys_old : ∀ (a2 a b : List (String × Node)),
    (∀ kv ∈ a2, lookupNode kv.1 a = some kv.2) →
    (keysOf a2).filterMap (specEntryFor a b) = diffOldEntries a2 b
  | [], _, _, _ => rfl
  | (k, v) :: rest, a, b, h => by
    have hk : lookupNode k a = some v := h (k, v) (List.mem_cons_self _ _)
    have htail := filterMap_keys_old rest a b (fun kv hm => h kv (List.mem_cons_of_mem _ hm))
    rw [show keysOf ((k, v) :: rest) = k :: keysOf rest from rfl, List.filterMap_cons,
      specEntryFor, hk]
    cases hb : lookupNode k b with
    | none => simp [diffOldEntries, hb, htail]
    | some w => cases hdw : diff v w <;> simp [diffOldEntries, hb, hdw, htail]

theorem filterMap_keys_added : ∀ (bs a b : List (String × Node)),
    (∀ kv ∈ bs, lookupNode kv.1 b = some kv.2) →
    ((keysOf bs).filter (fun k => !(hasKey k a))).filterMap (specEntryFor a b)
      = addedEntries a bs
  | [], _, _, _ => rfl
  | (k, w) :: rest, a, b, h => by
    have hk : lookupNode k b = some w := h (k, w) (List.mem_cons_self _ _)
    have htail := filterMap_keys_added rest a b (fun kv hm => h kv (List.mem_cons_of_mem _ hm))
    rw [show keysOf ((k, w) :: rest) = k :: keysOf rest from rfl, List.filter_cons]
    cases ha : hasKey k a with
    | true => simp [addedEntries, ha, htail]
    | false =>
      simp [addedEntries, ha, htail, specEntryFor, lookup_eq_none_of_not_hasKey ha, hk]

/-- Whether a diff node is a `MapDiff`. -/
def DiffNode.isMapDiff : DiffNode → Bool
  | .mapDiff _ => true
  | _ => false

/-- C2 counterexample: for `old = curr = the mapping with the single
entry `a: 1``, the one key of the union is present in both sides and
diffs to `Unchanged`, so the claim as stated predicts a `MapDiff` (with
the empty entry list), but `diff` returns `Unchanged`, which is not a
`MapDiff` at all. -/
theorem c2_counterexample :
    diff (Node.mapping [("a", Node.scalar "1")]) (Node.mapping [("a", Node.scalar "1")])
      = DiffNode.unchanged
    ∧ (diff (Node.mapping [("a", Node.scalar "1")])
        (Node.mapping [("a", Node.scalar "1")])).isMapDiff = false :=
  ⟨rfl, rfl⟩

/-- C2 (amended): for mappings with unique keys, the entry list described
by spec section 4.1a — `Removed` for keys only in `old`, `Added` for keys
only in `curr`, the recursive diff for shared keys with `Unchanged`
results dropped, ordered by first appearance scanning `old` then `curr` —
is exactly the entry list diff computes, and `diff` returns the `MapDiff`
of those entries when at least one survives and `Unchanged` when the
entry list is empty. -/
theorem c2_map_diff_entries (a b : List (String × Node))
    (ha : nodupKeys a = true) (hb : nodupKeys b = true) :
    specMapEntries a b = diffOldEntries a b ++ addedEntries a b
    ∧ diff (Node.mapping a) (Node.mapping b) =
      (match specMapEntries a b with
        | [] => DiffNode.unchanged
        | es => DiffNode.mapDiff es) := by
  have hkey : specKeys a b = keysOf a ++ (keysOf b).filter (fun k => !(hasKey k a)) := by
    rw [specKeys, dedupFirst_split (keysOf a) (keysOf b) [] ha (fun k _ => rfl) hb]
    congr 1
    apply List.filter_congr
    intro k _
    rw [hasKey_eq_any_keys]
    simp
  have hmain : specMapEntries a b = diffOldEntries a b ++ addedEntries a b := by
    rw [specMapEntries, hkey, List.filterMap_append,
      filterMap_keys_old a a b (fun kv hm => lookup_mem_of_nodup ha hm),
      filterMap_keys_added b a b (fun kv hm => lookup_mem_of_nodup hb hm)]
  exact ⟨hmain, by rw [hmain]; rfl⟩

/-- Witness for the amended C2 at the "add a map" integration test entry
lists: the single surviving entry is the added `Weight` subtree. -/
theorem c2_witness :
    specMapEntries
        [("Height", Node.mapping [("cm", Node.scalar "168")])]
        [("Height", Node.mapping [("cm", Node.scalar "168")]),
         ("Weight", Node.mapping [("kg", Node.scalar "52")])]
      = diffOldEntries
          [("Height", Node.mapping [("cm", Node.scalar "168")])]
          [("Height", Node.mapping [("cm", Node.scalar "168")]),
           ("Weight", Node.mapping [("kg", Node.scalar "52")])]
        ++ addedEntries
          [("Height", Node.mapping [("cm", Node.scalar "168")])]
          [("Height", Node.mapping [("cm", Node.scalar "168")]),
           ("Weight", Node.mapping [("kg", Node.scalar "52")])] :=
  (c2_map_diff_entries _ _ (by decide) (by decide)).1
